import Mathlib

/-!
Shallow embedding of the dual-store memory coordinator
(`memory_storage.py`, `sqlite_store.py`, `chroma_store.py`).

Modelling conventions, fixed once for the whole file:
* memory ids: `uuid.uuid4()` mints globally fresh ids; modelled as a
  counter `nextId` held in the system state, so a minted id is a `Nat`
  that is fresh relative to every id the system produced before.
* timestamps: SQLite's `CURRENT_TIMESTAMP` is wall-clock input, not a
  function of the store, so every mutating operation takes the current
  time `now : Nat` as an explicit argument.
* metadata mappings: Python dicts preserve insertion order; a mapping is
  a `List (String × MVal)` and `json.dumps`/`json.loads` round-trip is
  modelled by storing the parsed value itself (`MVal.obj`).
* embeddings and cosine distance: the embedding provider and the distance
  numerics are external to the repository; operations are parametric in
  `generate_embedding : String → List Int` and
  `dist : List Int → List Int → Int` (lower = more similar).
* fallible calls: a raised Python exception is an `Except.error`; the
  state carried alongside is the state with exactly the writes that had
  committed before the raise.
-/

/-- A JSON-serialisable metadata value: an opaque string or a nested
object.  This is the value domain the metadata mapping is opaque over. -/
inductive MVal where
  | str (s : String)
  | obj (d : List (String × MVal))
deriving Repr

mutual

/-- Decidable equality for metadata values (the nested inductive defeats
the automatic derivation). -/
def MVal.deq : (a b : MVal) → Decidable (a = b)
  | MVal.str s, MVal.str t =>
      match decEq s t with
      | isTrue h => isTrue (h ▸ rfl)
      | isFalse h => isFalse (fun hh => h (MVal.str.inj hh))
  | MVal.str _, MVal.obj _ => isFalse (fun hh => MVal.noConfusion hh)
  | MVal.obj _, MVal.str _ => isFalse (fun hh => MVal.noConfusion hh)
  | MVal.obj d, MVal.obj e =>
      match MVal.deqList d e with
      | isTrue h => isTrue (h ▸ rfl)
      | isFalse h => isFalse (fun hh => h (MVal.obj.inj hh))

/-- Decidable equality for metadata mappings. -/
def MVal.deqList : (a b : List (String × MVal)) → Decidable (a = b)
  | [], [] => isTrue rfl
  | [], _ :: _ => isFalse (fun hh => List.noConfusion hh)
  | _ :: _, [] => isFalse (fun hh => List.noConfusion hh)
  | (k1, v1) :: t1, (k2, v2) :: t2 =>
      match decEq k1 k2, MVal.deq v1 v2, MVal.deqList t1 t2 with
      | isTrue hk, isTrue hv, isTrue ht => isTrue (by rw [hk, hv, ht])
      | isFalse hk, _, _ => isFalse (fun hh => by
          injection hh with h1 h2; exact hk (congrArg Prod.fst h1))
      | _, isFalse hv, _ => isFalse (fun hh => by
          injection hh with h1 h2; exact hv (congrArg Prod.snd h1))
      | _, _, isFalse ht => isFalse (fun hh => by
          injection hh with h1 h2; exact ht h2)

end

instance : DecidableEq MVal := MVal.deq

/-- A metadata mapping: a Python dict from string keys to opaque values,
kept in insertion order as Python dicts are. -/
abbrev Metadata := List (String × MVal)

/-- Python dict item assignment `d[k] = v`: overwrite in place when the
key is present, otherwise append the new pair at the end. -/
def dictSet (d : Metadata) (k : String) (v : MVal) : Metadata :=
  if d.any (fun p => p.1 == k) then
    d.map (fun p => if p.1 == k then (k, v) else p)
  else d ++ [(k, v)]

/-- One row of the `memories` table created by
`SQLiteMetadataStore._initialize_db`: columns id (TEXT PRIMARY KEY),
user_id, content, is_deleted (BOOLEAN DEFAULT 0), created_at,
updated_at, metadata (TEXT holding serialised JSON, modelled parsed). -/
structure MemRow where
  id : Nat
  user_id : String
  content : String
  is_deleted : Bool
  created_at : Nat
  updated_at : Nat
  metadata : MVal
deriving Repr, DecidableEq

namespace SQLiteMetadataStore

/-- SQLiteMetadataStore.add_memory: INSERT INTO memories
(id, user_id, content, metadata) VALUES (?, ?, ?, ?) with
metadata_json = json.dumps(metadata or {}).  A duplicate primary key
makes the INSERT raise (UNIQUE constraint), leaving the table unchanged;
otherwise a new row appears with is_deleted=0 and both timestamps set to
the current time. -/
def add_memory (rows : List MemRow) (memory_id : Nat) (user_id content : String)
    (metadata : Option Metadata) (now : Nat) : Except String (List MemRow) :=
  if rows.any (fun r => r.id == memory_id) then
    Except.error "IntegrityError: UNIQUE constraint failed: memories.id"
  else
    Except.ok (rows ++ [{ id := memory_id, user_id := user_id, content := content,
                          is_deleted := false, created_at := now, updated_at := now,
                          metadata := MVal.obj (metadata.getD []) }])

/-- SQLiteMetadataStore.delete_memory: UPDATE memories SET is_deleted = 1,
updated_at = CURRENT_TIMESTAMP WHERE id = ?.  Every row whose id matches
(at most one, given the primary key) gets its flag set and its updated_at
refreshed; matching zero rows is not an error. -/
def delete_memory (rows : List MemRow) (memory_id : Nat) (now : Nat) : List MemRow :=
  rows.map (fun r =>
    if r.id == memory_id then { r with is_deleted := true, updated_at := now } else r)

/-- Insertion step for an ORDER BY over an integer sort key (ascending). -/
def insertByKey {α : Type} (key : α → Int) (e : α) : List α → List α
  | [] => [e]
  | x :: xs => if key e ≤ key x then e :: x :: xs else x :: insertByKey key e xs

/-- Sort by an integer key, ascending; models a SQL ORDER BY (ties keep a
deterministic order, which no claim depends on). -/
def sortByKey {α : Type} (key : α → Int) : List α → List α
  | [] => []
  | x :: xs => insertByKey key x (sortByKey key xs)

/-- SQLiteMetadataStore.get_active_memories: SELECT id FROM memories WHERE
user_id = ? AND is_deleted = 0 ORDER BY created_at DESC. -/
def get_active_memories (rows : List MemRow) (user_id : String) : List Nat :=
  (sortByKey (fun r => -(r.created_at : Int))
      (rows.filter (fun r => r.user_id == user_id && r.is_deleted == false))).map
    (fun r => r.id)

/-- SQLiteMetadataStore.get_memory_by_id: SELECT * FROM memories WHERE
id = ?, fetchone, returned as a dict (the whole row) or None. -/
def get_memory_by_id (rows : List MemRow) (memory_id : Nat) : Option MemRow :=
  rows.find? (fun r => r.id == memory_id)

/-- Shape of a value in the `updates` dict accepted by update_memory. -/
def isStrVal : MVal → Bool
  | MVal.str _ => true
  | MVal.obj _ => false

/-- Applying one SET clause of update_memory: only the content and
metadata columns are ever assigned (the key filter admits nothing else);
a metadata value is stored through json.dumps, modelled as the value. -/
def applyClause (r : MemRow) (kv : String × MVal) : MemRow :=
  if kv.1 == "content" then
    match kv.2 with
    | MVal.str v => { r with content := v }
    | MVal.obj _ => r
  else if kv.1 == "metadata" then { r with metadata := kv.2 }
  else r

/-- SQLiteMetadataStore.update_memory: builds SET clauses only for the
keys "content" and "metadata", dropping every other key; when no clause
remains no UPDATE statement runs at all.  A mapping value bound to the
content column is rejected by the SQL driver (raise), which is the only
failure path; otherwise the matching row gets the clauses applied and its
updated_at refreshed. -/
def update_memory (rows : List MemRow) (memory_id : Nat)
    (updates : List (String × MVal)) (now : Nat) : Except String (List MemRow) :=
  let clauses := updates.filter (fun kv => kv.1 == "content" || kv.1 == "metadata")
  if clauses.isEmpty then Except.ok rows
  else if clauses.any (fun kv => kv.1 == "content" && !(isStrVal kv.2)) then
    Except.error "InterfaceError: unsupported parameter type"
  else
    Except.ok (rows.map (fun r =>
      if r.id == memory_id then { clauses.foldl applyClause r with updated_at := now }
      else r))

end SQLiteMetadataStore

/-- One stored vector entry of the chroma collection: embedding, document
text and metadata, keyed by memory id in `ChromaCollection`. -/
structure VecEntry where
  embedding : List Int
  content : String
  metadata : Metadata
deriving Repr, DecidableEq

/-- Modelled from the spec: the chromadb collection client is an external
dependency whose code is not part of this repository; §4.2 (VectorIndex)
specifies its contract.  Entries are keyed by memory id. -/
structure ChromaCollection where
  entries : List (Nat × VecEntry)
deriving Repr, DecidableEq

namespace ChromaCollection

/-- Modelled from the spec: collection.add, read through §4.2's upsert
contract — overwrite when the id is already present, never an error.
Within the Coordinator ids are freshly minted, so the duplicate branch is
never exercised by the operations below. -/
def addEntry (c : ChromaCollection) (memory_id : Nat) (e : VecEntry) : ChromaCollection :=
  if c.entries.any (fun p => p.1 == memory_id) then
    ⟨c.entries.map (fun p => if p.1 == memory_id then (memory_id, e) else p)⟩
  else ⟨c.entries ++ [(memory_id, e)]⟩

/-- Modelled from the spec: collection.query with the where-clause this
system issues.  The only filter the Coordinator ever builds is the
candidate-id restriction (id: $in activeIds), which §4.2 describes as
restricting eligibility to that id set; eligible entries are ranked by
ascending distance to the query embedding and the first n ids returned. -/
def queryNearest (c : ChromaCollection) (dist : List Int → List Int → Int)
    (embedding : List Int) (whereIds : Option (List Nat)) (n : Nat) : List Nat :=
  let eligible := c.entries.filter (fun p =>
    match whereIds with
    | some ids => ids.contains p.1
    | none => true)
  ((SQLiteMetadataStore.sortByKey (fun p => dist embedding p.2.embedding) eligible).take
      n).map (fun p => p.1)

/-- Modelled from the spec: collection.delete(ids=[id]) — idempotent
removal of the entry with that id; removing a missing id is a no-op. -/
def deleteEntry (c : ChromaCollection) (memory_id : Nat) : ChromaCollection :=
  ⟨c.entries.filter (fun p => p.1 != memory_id)⟩

end ChromaCollection

namespace ChromaVectorStore

/-- ChromaVectorStore.add_memory: memory_metadata = metadata or {} then
memory_metadata["memory_id"] = memory_id, then collection.add.  In Python
the first line aliases the caller's dict whenever it is a non-empty
mapping, so the assignment mutates the caller's dict in place; the second
component of the result is the caller's metadata binding after the call,
making that aliasing explicit. -/
def add_memory (c : ChromaCollection) (memory_id : Nat) (embedding : List Int)
    (content : String) (metadata : Option Metadata) :
    ChromaCollection × Option Metadata :=
  match metadata with
  | some d =>
      if d.isEmpty then
        (c.addEntry memory_id
          ⟨embedding, content, [("memory_id", MVal.str (toString memory_id))]⟩, some d)
      else
        let d2 := dictSet d "memory_id" (MVal.str (toString memory_id))
        (c.addEntry memory_id ⟨embedding, content, d2⟩, some d2)
  | none =>
      (c.addEntry memory_id
        ⟨embedding, content, [("memory_id", MVal.str (toString memory_id))]⟩, none)

/-- ChromaVectorStore._convert_filter_to_chroma_format: on the only
filter shape this system builds (id: $in ids) the conversion passes the
$in clause through unchanged. -/
def convert_filter_to_chroma_format (filter_ids : Option (List Nat)) :
    Option (List Nat) := filter_ids

/-- ChromaVectorStore.query: converts the filter and forwards to
collection.query; the Coordinator only consumes the ranked id list of the
result dict. -/
def query (c : ChromaCollection) (dist : List Int → List Int → Int)
    (embedding : List Int) (filter_ids : Option (List Nat)) (n : Nat) : List Nat :=
  c.queryNearest dist embedding (convert_filter_to_chroma_format filter_ids) n

/-- ChromaVectorStore.delete_memory: collection.delete(ids=[memory_id]). -/
def delete_memory (c : ChromaCollection) (memory_id : Nat) : ChromaCollection :=
  c.deleteEntry memory_id

end ChromaVectorStore

/-- Modelled from the spec: the embedding provider (embedding_service.py
is not under src/); §6 gives its contract — embed : text → fixed-length
vector, embedMany : texts → vectors in the same order and length.  The
batch function is kept as a separate field because
MemoryStorage.add_memories_batch consumes it through zip, so its length
behaviour is observable. -/
structure EmbeddingService where
  generate_embedding : String → List Int
  generate_embeddings_batch : List String → List (List Int)

/-- The shared state the Coordinator owns: the SQLite rows, the chroma
collection, and the uuid mint modelled as a fresh counter. -/
structure SysState where
  meta : List MemRow
  vec : ChromaCollection
  nextId : Nat
deriving Repr, DecidableEq

/-- One store call issued by a Coordinator operation, recorded in issue
order so cross-store ordering claims can be stated. -/
inductive StoreEvent where
  | metaAdd (id : Nat)
  | metaSoftDelete (id : Nat)
  | metaGetActive
  | metaGetById (id : Nat)
  | vecAdd (id : Nat)
  | vecQuery
  | vecRemove (id : Nat)
deriving Repr, DecidableEq

/-- Events against the VectorIndex (used to state that an operation never
touched the vector store). -/
def StoreEvent.isVec : StoreEvent → Bool
  | StoreEvent.vecAdd _ => true
  | StoreEvent.vecQuery => true
  | StoreEvent.vecRemove _ => true
  | _ => false

/-- Outcome of one Coordinator operation: the post state (holding exactly
the writes that committed), the store calls in issue order, and the
returned value. -/
structure OpOut (α : Type) where
  state : SysState
  trace : List StoreEvent
  result : α
deriving Repr

namespace MemoryStorage

/-- MemoryStorage.add_memory: mint an id, generate the embedding, write
the metadata store, then write the vector store, return the id.  A raise
from the metadata INSERT propagates with no write committed. -/
def add_memory (es : EmbeddingService) (s : SysState) (user_id fact : String)
    (metadata : Option Metadata) (now : Nat) : OpOut (Except String Nat) :=
  let memory_id := s.nextId
  let embedding := es.generate_embedding fact
  match SQLiteMetadataStore.add_memory s.meta memory_id user_id fact metadata now with
  | Except.error e => ⟨s, [StoreEvent.metaAdd memory_id], Except.error e⟩
  | Except.ok meta2 =>
      let ve := ChromaVectorStore.add_memory s.vec memory_id embedding fact metadata
      ⟨{ meta := meta2, vec := ve.1, nextId := s.nextId + 1 },
       [StoreEvent.metaAdd memory_id, StoreEvent.vecAdd memory_id],
       Except.ok memory_id⟩

/-- The loop body of MemoryStorage.add_memories_batch over the zipped
(fact, embedding) pairs, threading both the system state and the caller's
metadata binding (the chroma wrapper mutates a non-empty dict in place,
and the next iteration's metadata INSERT observes that mutation). -/
def addBatchLoop (user_id : String) (now : Nat) :
    SysState → Option Metadata → List (String × List Int) →
    SysState × List StoreEvent × Except String (List Nat)
  | s, _, [] => (s, [], Except.ok [])
  | s, md, (fact, embedding) :: rest =>
      let memory_id := s.nextId
      match SQLiteMetadataStore.add_memory s.meta memory_id user_id fact md now with
      | Except.error e => (s, [StoreEvent.metaAdd memory_id], Except.error e)
      | Except.ok meta2 =>
          let ve := ChromaVectorStore.add_memory s.vec memory_id embedding fact md
          let s2 : SysState := { meta := meta2, vec := ve.1, nextId := s.nextId + 1 }
          match addBatchLoop user_id now s2 ve.2 rest with
          | (s3, tr, Except.ok ids) =>
              (s3, StoreEvent.metaAdd memory_id :: StoreEvent.vecAdd memory_id :: tr,
               Except.ok (memory_id :: ids))
          | (s3, tr, Except.error e) =>
              (s3, StoreEvent.metaAdd memory_id :: StoreEvent.vecAdd memory_id :: tr,
               Except.error e)

/-- MemoryStorage.add_memories_batch: an empty facts list returns []
before any embedding or store call; otherwise embeddings are generated in
batch, zipped with the facts, and each pair is written metadata-first.
On a mid-loop raise the ids list is discarded but the committed writes of
earlier iterations persist in the state. -/
def add_memories_batch (es : EmbeddingService) (s : SysState) (user_id : String)
    (facts : List String) (metadata : Option Metadata) (now : Nat) :
    OpOut (Except String (List Nat)) :=
  if facts.isEmpty then ⟨s, [], Except.ok []⟩
  else
    let embeddings := es.generate_embeddings_batch facts
    let out := addBatchLoop user_id now s metadata (facts.zip embeddings)
    ⟨out.1, out.2.1, out.2.2⟩

/-- MemoryStorage.delete_memory (deleteByContent): embed the fact, fetch
the user's active ids, return false on an empty set without a vector
query; otherwise query top-1 restricted to the active ids, and when a hit
exists soft-delete it in the metadata store, then hard-delete its vector,
returning true. -/
def delete_memory (es : EmbeddingService) (dist : List Int → List Int → Int)
    (s : SysState) (user_id fact : String) (now : Nat) : OpOut Bool :=
  let embedding := es.generate_embedding fact
  let active_ids := SQLiteMetadataStore.get_active_memories s.meta user_id
  if active_ids.isEmpty then ⟨s, [StoreEvent.metaGetActive], false⟩
  else
    match ChromaVectorStore.query s.vec dist embedding (some active_ids) 1 with
    | [] => ⟨s, [StoreEvent.metaGetActive, StoreEvent.vecQuery], false⟩
    | memory_id :: _ =>
        ⟨{ s with meta := SQLiteMetadataStore.delete_memory s.meta memory_id now,
                  vec := ChromaVectorStore.delete_memory s.vec memory_id },
         [StoreEvent.metaGetActive, StoreEvent.vecQuery,
          StoreEvent.metaSoftDelete memory_id, StoreEvent.vecRemove memory_id],
         true⟩

/-- MemoryStorage.retrieve_memories: fetch the user's active ids, return
[] on an empty set without a vector query; otherwise query top-n
restricted to the active ids, then re-fetch every hit from the metadata
store and keep it only when found and not soft-deleted, preserving the
query's similarity order.  A read-only operation: the state is returned
unchanged. -/
def retrieve_memories (es : EmbeddingService) (dist : List Int → List Int → Int)
    (s : SysState) (user_id q : String) (n : Nat) : OpOut (List MemRow) :=
  let active_ids := SQLiteMetadataStore.get_active_memories s.meta user_id
  if active_ids.isEmpty then ⟨s, [StoreEvent.metaGetActive], []⟩
  else
    let query_embedding := es.generate_embedding q
    let results := ChromaVectorStore.query s.vec dist query_embedding (some active_ids) n
    ⟨s, [StoreEvent.metaGetActive, StoreEvent.vecQuery] ++
          results.map (fun mid => StoreEvent.metaGetById mid),
     results.filterMap (fun mid =>
       match SQLiteMetadataStore.get_memory_by_id s.meta mid with
       | some r => if r.is_deleted then none else some r
       | none => none)⟩

end MemoryStorage

/-- MemoryStorage.retrieve_memories with the metadata-store state at each
of its suspension points made explicit: meta1 is the state the candidate
fetch reads, meta2 the state the per-hit re-fetch reads, so a delete that
completes between the two store calls is the case meta1 ≠ meta2.  With
meta1 = meta2 this is exactly the result of retrieve_memories. -/
def retrieve_memories_interleaved (dist : List Int → List Int → Int)
    (query_embedding : List Int) (meta1 meta2 : List MemRow)
    (vec : ChromaCollection) (user_id : String) (n : Nat) : List MemRow :=
  let active_ids := SQLiteMetadataStore.get_active_memories meta1 user_id
  if active_ids.isEmpty then []
  else
    let results := ChromaVectorStore.query vec dist query_embedding (some active_ids) n
    results.filterMap (fun mid =>
      match SQLiteMetadataStore.get_memory_by_id meta2 mid with
      | some r => if r.is_deleted then none else some r
      | none => none)

/-- Every mutating entry point of the system: the four Coordinator
operations and the raw store operations they are built from (the
remaining store calls are reads and take no state to a new state). -/
inductive SysOp where
  | opAdd (user_id fact : String) (metadata : Option Metadata) (now : Nat)
  | opAddBatch (user_id : String) (facts : List String) (metadata : Option Metadata)
      (now : Nat)
  | opDelete (user_id fact : String) (now : Nat)
  | opRetrieve (user_id q : String) (n : Nat)
  | opMetaAdd (memory_id : Nat) (user_id content : String) (metadata : Option Metadata)
      (now : Nat)
  | opMetaSoftDelete (memory_id : Nat) (now : Nat)
  | opMetaUpdate (memory_id : Nat) (updates : List (String × MVal)) (now : Nat)
  | opVecAdd (memory_id : Nat) (embedding : List Int) (content : String)
      (metadata : Option Metadata)
  | opVecRemove (memory_id : Nat)

/-- The state transition of one system operation; a raised store error
leaves exactly the writes that had committed (for the single-row store
operations, none). -/
def runSysOp (es : EmbeddingService) (dist : List Int → List Int → Int)
    (s : SysState) : SysOp → SysState
  | SysOp.opAdd user_id fact metadata now =>
      (MemoryStorage.add_memory es s user_id fact metadata now).state
  | SysOp.opAddBatch user_id facts metadata now =>
      (MemoryStorage.add_memories_batch es s user_id facts metadata now).state
  | SysOp.opDelete user_id fact now =>
      (MemoryStorage.delete_memory es dist s user_id fact now).state
  | SysOp.opRetrieve user_id q n =>
      (MemoryStorage.retrieve_memories es dist s user_id q n).state
  | SysOp.opMetaAdd memory_id user_id content metadata now =>
      match SQLiteMetadataStore.add_memory s.meta memory_id user_id content metadata now with
      | Except.ok meta2 => { s with meta := meta2 }
      | Except.error _ => s
  | SysOp.opMetaSoftDelete memory_id now =>
      { s with meta := SQLiteMetadataStore.delete_memory s.meta memory_id now }
  | SysOp.opMetaUpdate memory_id updates now =>
      match SQLiteMetadataStore.update_memory s.meta memory_id updates now with
      | Except.ok meta2 => { s with meta := meta2 }
      | Except.error _ => s
  | SysOp.opVecAdd memory_id embedding content metadata =>
      { s with vec := (ChromaVectorStore.add_memory s.vec memory_id embedding content
          metadata).1 }
  | SysOp.opVecRemove memory_id =>
      { s with vec := ChromaVectorStore.delete_memory s.vec memory_id }

/-- The flag get_memory_by_id reports for an id: is_deleted of the row the
lookup finds, false when the id is absent from the log. -/
def isDeletedById (rows : List MemRow) (memory_id : Nat) : Bool :=
  match SQLiteMetadataStore.get_memory_by_id rows memory_id with
  | some r => r.is_deleted
  | none => false

/-- A row with its updated_at column masked, used to state store
equalities up to the timestamp refresh a repeated UPDATE performs. -/
def rowCore (r : MemRow) : MemRow := { r with updated_at := 0 }

/-- Positions before a vector-store write at which the matching
metadata write appears: every vecAdd in the trace is preceded by a
metaAdd of the same id, and every vecRemove by a metaSoftDelete of the
same id. -/
def metaWriteFirst (tr : List StoreEvent) : Prop :=
  (∀ i mid, tr.get? i = some (StoreEvent.vecAdd mid) →
      ∃ j, j < i ∧ tr.get? j = some (StoreEvent.metaAdd mid)) ∧
  (∀ i mid, tr.get? i = some (StoreEvent.vecRemove mid) →
      ∃ j, j < i ∧ tr.get? j = some (StoreEvent.metaSoftDelete mid))

/-- A concrete embedding service for instantiating the theorems on
closed inputs: the embedding of a text is its length. -/
def sampleES : EmbeddingService :=
  { generate_embedding := fun t => [Int.ofNat t.length],
    generate_embeddings_batch := fun l => l.map (fun t => [Int.ofNat t.length]) }

/-- A concrete distance for instantiating the theorems on closed
inputs: absolute difference of the head coordinates. -/
def sampleDist (a b : List Int) : Int := (a.headD 0 - b.headD 0).natAbs

/-- A concrete active metadata row. -/
def sampleActiveRow : MemRow :=
  { id := 0, user_id := "u", content := "aa", is_deleted := false,
    created_at := 0, updated_at := 0, metadata := MVal.obj [] }

/-- A concrete soft-deleted metadata row. -/
def sampleDeletedRow : MemRow :=
  { id := 0, user_id := "u", content := "aa", is_deleted := true,
    created_at := 0, updated_at := 0, metadata := MVal.obj [] }

/-- A concrete system state holding one soft-deleted row. -/
def sampleStateDel : SysState :=
  { meta := [sampleDeletedRow], vec := ⟨[]⟩, nextId := 1 }

/-- A concrete system state holding one active row for user u whose
vector is present in the collection. -/
def sampleStateAct : SysState :=
  { meta := [sampleActiveRow],
    vec := ⟨[(0, { embedding := [2], content := "aa", metadata := [] })]⟩,
    nextId := 1 }

/-- A concrete empty system state. -/
def sampleStateEmpty : SysState := { meta := [], vec := ⟨[]⟩, nextId := 0 }

theorem mem_insertByKey {α : Type} (key : α → Int) (e : α) (l : List α) (y : α) :
    y ∈ SQLiteMetadataStore.insertByKey key e l ↔ y = e ∨ y ∈ l := by
  induction l with
  | nil => simp [SQLiteMetadataStore.insertByKey]
  | cons x xs ih =>
    simp only [SQLiteMetadataStore.insertByKey]
    by_cases h : key e ≤ key x
    · simp [h]
    · simp only [h, if_false, List.mem_cons, ih]
      tauto

theorem mem_sortByKey {α : Type} (key : α → Int) (l : List α) (y : α) :
    y ∈ SQLiteMetadataStore.sortByKey key l ↔ y ∈ l := by
  induction l with
  | nil => simp [SQLiteMetadataStore.sortByKey]
  | cons x xs ih =>
    simp [SQLiteMetadataStore.sortByKey, mem_insertByKey, ih]

theorem pairwise_insertByKey {α : Type} (key : α → Int) (e : α) (l : List α)
    (h : l.Pairwise (fun a b => key a ≤ key b)) :
    (SQLiteMetadataStore.insertByKey key e l).Pairwise (fun a b => key a ≤ key b) := by
  induction l with
  | nil => simp [SQLiteMetadataStore.insertByKey]
  | cons x xs ih =>
    rcases List.pairwise_cons.mp h with ⟨hx, hxs⟩
    simp only [SQLiteMetadataStore.insertByKey]
    by_cases hc : key e ≤ key x
    · rw [if_pos hc]
      refine List.pairwise_cons.mpr ⟨?_, h⟩
      intro y hy
      rcases List.mem_cons.mp hy with rfl | hy
      · exact hc
      · exact le_trans hc (hx y hy)
    · rw [if_neg hc]
      refine List.pairwise_cons.mpr ⟨?_, ih hxs⟩
      intro y hy
      rcases (mem_insertByKey key e xs y).mp hy with rfl | hy
      · omega
      · exact hx y hy

theorem sortByKey_pairwise {α : Type} (key : α → Int) (l : List α) :
    (SQLiteMetadataStore.sortByKey key l).Pairwise (fun a b => key a ≤ key b) := by
  induction l with
  | nil => simp [SQLiteMetadataStore.sortByKey]
  | cons x xs ih => exact pairwise_insertByKey key x _ ih

theorem sortByKey_head_min {α : Type} (key : α → Int) (l : List α) (h : α)
    (t : List α) (hs : SQLiteMetadataStore.sortByKey key l = h :: t) :
    ∀ y ∈ l, key h ≤ key y := by
  intro y hy
  have hy2 : y ∈ h :: t := by
    rw [← hs]; exact (mem_sortByKey key l y).mpr hy
  rcases List.mem_cons.mp hy2 with rfl | hy2
  · exact le_refl _
  · have hp := sortByKey_pairwise key l
    rw [hs] at hp
    exact (List.pairwise_cons.mp hp).1 y hy2

theorem mem_get_active_memories (rows : List MemRow) (u : String) (i : Nat) :
    i ∈ SQLiteMetadataStore.get_active_memories rows u ↔
      ∃ r ∈ rows, r.id = i ∧ r.user_id = u ∧ r.is_deleted = false := by
  unfold SQLiteMetadataStore.get_active_memories
  simp only [List.mem_map, mem_sortByKey, List.mem_filter, Bool.and_eq_true, beq_iff_eq]
  constructor
  · rintro ⟨r, ⟨hr, hu, hd⟩, rfl⟩
    exact ⟨r, hr, rfl, hu, hd⟩
  · rintro ⟨r, hr, rfl, hu, hd⟩
    exact ⟨r, ⟨hr, hu, hd⟩, rfl⟩

theorem mem_queryNearest (c : ChromaCollection) (dist : List Int → List Int → Int)
    (emb : List Int) (ids : List Nat) (n : Nat) (mid : Nat)
    (h : mid ∈ ChromaCollection.queryNearest c dist emb (some ids) n) :
    mid ∈ ids ∧ ∃ e, (mid, e) ∈ c.entries := by
  unfold ChromaCollection.queryNearest at h
  simp only [List.mem_map] at h
  rcases h with ⟨p, hp, rfl⟩
  have hp2 : p ∈ SQLiteMetadataStore.sortByKey
      (fun p => dist emb p.2.embedding)
      (c.entries.filter (fun p => ids.contains p.1)) := List.take_subset _ _ hp
  rw [mem_sortByKey] at hp2
  rcases List.mem_filter.mp hp2 with ⟨hmem, hin⟩
  refine ⟨?_, p.2, ?_⟩
  · exact (List.elem_iff).mp hin
  · simpa using hmem

theorem find?_append_left {α : Type} (p : α → Bool) (l1 l2 : List α) (r : α)
    (h : l1.find? p = some r) : (l1 ++ l2).find? p = some r := by
  induction l1 with
  | nil => simp [List.find?] at h
  | cons x xs ih =>
    rw [List.cons_append]
    by_cases hx : p x
    · rw [List.find?_cons_of_pos _ hx] at h
      rw [List.find?_cons_of_pos _ hx]
      exact h
    · rw [List.find?_cons_of_neg _ hx] at h
      rw [List.find?_cons_of_neg _ hx]
      exact ih h

theorem find?_id_map (rows : List MemRow) (f : MemRow → MemRow)
    (hid : ∀ r, (f r).id = r.id) (i : Nat) :
    (rows.map f).find? (fun r => r.id == i) =
      (rows.find? (fun r => r.id == i)).map f := by
  induction rows with
  | nil => simp
  | cons x xs ih =>
    rw [List.map_cons]
    by_cases hx : x.id = i
    · have h1 : ((f x).id == i) = true := by simp [hid, hx]
      have h2 : (x.id == i) = true := by simp [hx]
      simp only [List.find?_cons, h1, h2, cond_true]
      rfl
    · have h1 : ((f x).id == i) = false := by simp [hid, hx]
      have h2 : (x.id == i) = false := by simp [hx]
      simp only [List.find?_cons, h1, h2, cond_false]
      exact ih

theorem isDeletedById_append (rows l2 : List MemRow) (i : Nat)
    (h : isDeletedById rows i = true) : isDeletedById (rows ++ l2) i = true := by
  unfold isDeletedById SQLiteMetadataStore.get_memory_by_id at h ⊢
  cases hf : rows.find? (fun r => r.id == i) with
  | none => rw [hf] at h; exact absurd h (by simp)
  | some r =>
    rw [hf] at h
    rw [find?_append_left _ _ _ _ hf]
    exact h

theorem isDeletedById_map (rows : List MemRow) (f : MemRow → MemRow)
    (hid : ∀ r, (f r).id = r.id)
    (hdel : ∀ r, r.is_deleted = true → (f r).is_deleted = true) (i : Nat)
    (h : isDeletedById rows i = true) : isDeletedById (rows.map f) i = true := by
  unfold isDeletedById SQLiteMetadataStore.get_memory_by_id at h ⊢
  rw [find?_id_map rows f hid i]
  cases hf : rows.find? (fun r => r.id == i) with
  | none => rw [hf] at h; exact absurd h (by simp)
  | some r =>
    rw [hf] at h
    exact hdel r h

theorem applyClause_fields (r : MemRow) (kv : String × MVal) :
    (SQLiteMetadataStore.applyClause r kv).id = r.id ∧
    (SQLiteMetadataStore.applyClause r kv).is_deleted = r.is_deleted := by
  unfold SQLiteMetadataStore.applyClause
  rcases kv with ⟨k, v⟩
  by_cases h1 : k = "content"
  · simp only [h1]
    cases v <;> simp
  · by_cases h2 : k = "metadata" <;> simp [h1, h2]

theorem foldl_applyClause_fields (clauses : List (String × MVal)) (r : MemRow) :
    (clauses.foldl SQLiteMetadataStore.applyClause r).id = r.id ∧
    (clauses.foldl SQLiteMetadataStore.applyClause r).is_deleted = r.is_deleted := by
  induction clauses generalizing r with
  | nil => exact ⟨rfl, rfl⟩
  | cons c cs ih =>
    simp only [List.foldl_cons]
    rcases applyClause_fields r c with ⟨h1, h2⟩
    rcases ih (SQLiteMetadataStore.applyClause r c) with ⟨h3, h4⟩
    exact ⟨h3.trans h1, h4.trans h2⟩

theorem sqlite_add_ok_shape (rows : List MemRow) (mid : Nat) (u c : String)
    (md : Option Metadata) (now : Nat) (m2 : List MemRow)
    (h : SQLiteMetadataStore.add_memory rows mid u c md now = Except.ok m2) :
    ∃ l2, m2 = rows ++ l2 := by
  unfold SQLiteMetadataStore.add_memory at h
  split at h
  · cases h
  · exact ⟨_, (Except.ok.inj h).symm⟩

theorem sqlite_delete_deleted_preserved (rows : List MemRow) (mid : Nat) (now : Nat)
    (i : Nat) (h : isDeletedById rows i = true) :
    isDeletedById (SQLiteMetadataStore.delete_memory rows mid now) i = true := by
  apply isDeletedById_map rows _ _ _ i h
  · intro r
    by_cases hr : (r.id == mid) = true <;> simp [SQLiteMetadataStore.delete_memory, hr]
  · intro r hdel
    by_cases hr : (r.id == mid) = true <;>
      simp [SQLiteMetadataStore.delete_memory, hr, hdel]

theorem sqlite_update_deleted_preserved (rows : List MemRow) (mid : Nat)
    (upds : List (String × MVal)) (now : Nat) (m2 : List MemRow) (i : Nat)
    (h : SQLiteMetadataStore.update_memory rows mid upds now = Except.ok m2)
    (hd : isDeletedById rows i = true) : isDeletedById m2 i = true := by
  unfold SQLiteMetadataStore.update_memory at h
  dsimp only at h
  split at h
  · rw [← Except.ok.inj h]; exact hd
  · split at h
    · cases h
    · rw [← Except.ok.inj h]
      apply isDeletedById_map rows _ _ _ i hd
      · intro r
        by_cases hr : (r.id == mid) = true <;>
          simp [hr, (foldl_applyClause_fields _ r).1]
      · intro r hdel
        by_cases hr : (r.id == mid) = true <;>
          simp [hr, (foldl_applyClause_fields _ r).2, hdel]

theorem add_memory_deleted_preserved (es : EmbeddingService) (s : SysState)
    (u fact : String) (md : Option Metadata) (now : Nat) (i : Nat)
    (h : isDeletedById s.meta i = true) :
    isDeletedById (MemoryStorage.add_memory es s u fact md now).state.meta i = true := by
  unfold MemoryStorage.add_memory
  dsimp only
  split
  · exact h
  · next meta2 heq =>
    rcases sqlite_add_ok_shape _ _ _ _ _ _ _ heq with ⟨l2, rfl⟩
    exact isDeletedById_append _ _ _ h

theorem addBatchLoop_deleted_preserved (u : String) (now : Nat)
    (pairs : List (String × List Int)) :
    ∀ (s : SysState) (md : Option Metadata) (i : Nat),
      isDeletedById s.meta i = true →
      isDeletedById (MemoryStorage.addBatchLoop u now s md pairs).1.meta i = true := by
  induction pairs with
  | nil =>
    intro s md i h
    simpa [MemoryStorage.addBatchLoop] using h
  | cons pe rest ih =>
    intro s md i h
    rcases pe with ⟨fact, emb⟩
    unfold MemoryStorage.addBatchLoop
    dsimp only
    split
    · exact h
    · next meta2 heq =>
      rcases sqlite_add_ok_shape _ _ _ _ _ _ _ heq with ⟨l2, hm2⟩
      have h2 :
          isDeletedById
            (({ meta := meta2,
                vec := (ChromaVectorStore.add_memory s.vec s.nextId emb fact md).1,
                nextId := s.nextId + 1 } : SysState)).meta i = true := by
        rw [hm2]; exact isDeletedById_append _ _ _ h
      have h3 := ih _ ((ChromaVectorStore.add_memory s.vec s.nextId emb fact md).2) i h2
      split
      · next s3 tr ids hrec => rw [hrec] at h3; exact h3
      · next s3 tr e hrec => rw [hrec] at h3; exact h3

/-- C5: a soft-deleted memory is terminal — no operation of the system
(Coordinator add, batch add, deleteByContent, retrieve, or any raw store
operation) takes a metadata row whose is_deleted flag the log reports as
true back to a state where the log reports it false. -/
theorem C5_soft_delete_terminal (es : EmbeddingService)
    (dist : List Int → List Int → Int) (s : SysState) (op : SysOp) (i : Nat)
    (h : isDeletedById s.meta i = true) :
    isDeletedById (runSysOp es dist s op).meta i = true := by
  cases op with
  | opAdd user_id fact metadata now => exact add_memory_deleted_preserved es s _ _ _ _ _ h
  | opAddBatch user_id facts metadata now =>
    unfold runSysOp MemoryStorage.add_memories_batch
    dsimp only
    split
    · exact h
    · exact addBatchLoop_deleted_preserved user_id now _ s metadata i h
  | opDelete user_id fact now =>
    unfold runSysOp MemoryStorage.delete_memory
    dsimp only
    split
    · exact h
    · split
      · exact h
      · exact sqlite_delete_deleted_preserved s.meta _ now i h
  | opRetrieve user_id q n =>
    unfold runSysOp MemoryStorage.retrieve_memories
    dsimp only
    split
    · exact h
    · exact h
  | opMetaAdd memory_id user_id content metadata now =>
    unfold runSysOp
    dsimp only
    split
    · next meta2 heq =>
      rcases sqlite_add_ok_shape _ _ _ _ _ _ _ heq with ⟨l2, rfl⟩
      exact isDeletedById_append _ _ _ h
    · exact h
  | opMetaSoftDelete memory_id now => exact sqlite_delete_deleted_preserved _ _ _ _ h
  | opMetaUpdate memory_id updates now =>
    unfold runSysOp
    dsimp only
    split
    · next meta2 heq => exact sqlite_update_deleted_preserved _ _ _ _ _ _ heq h
    · exact h
  | opVecAdd memory_id embedding content metadata => exact h
  | opVecRemove memory_id => exact h

theorem C5_soft_delete_terminal_witness :
    isDeletedById sampleStateDel.meta 0 = true ∧
    isDeletedById
      (runSysOp sampleES sampleDist sampleStateDel (SysOp.opAdd "u" "f" none 2)).meta 0
      = true :=
  ⟨rfl, C5_soft_delete_terminal sampleES sampleDist sampleStateDel
      (SysOp.opAdd "u" "f" none 2) 0 rfl⟩

theorem find?_eq_of_nodup (rows : List MemRow) (r : MemRow) (mid : Nat)
    (hnd : (rows.map (fun r => r.id)).Nodup) (hr : r ∈ rows) (hid : r.id = mid) :
    rows.find? (fun x => x.id == mid) = some r := by
  induction rows with
  | nil => cases hr
  | cons x xs ih =>
    have hnd2 : x.id ∉ xs.map (fun r => r.id) ∧ (xs.map (fun r => r.id)).Nodup := by
      rw [List.map_cons] at hnd
      exact List.nodup_cons.mp hnd
    rcases List.mem_cons.mp hr with rfl | hr2
    · rw [List.find?_cons_of_pos _ (by simp [hid])]
    · have hx : ¬ x.id = mid := by
        intro hx
        have h1 : r.id ∈ xs.map (fun r => r.id) := List.mem_map_of_mem _ hr2
        rw [hid, ← hx] at h1
        exact hnd2.1 h1
      rw [List.find?_cons_of_neg _ (by simp [hx])]
      exact ih hnd2.2 hr2

theorem map_eq_of_pointwise {α β : Type} (f g : α → β) (l : List α)
    (h : ∀ a ∈ l, f a = g a) : l.map f = l.map g := by
  induction l with
  | nil => rfl
  | cons x xs ih =>
    rw [List.map_cons, List.map_cons, h x (List.mem_cons_self x xs),
      ih (fun a ha => h a (List.mem_cons_of_mem _ ha))]

/-- C6 counterexample: calling softDelete on an already-deleted id is not
a no-op on the store — the UPDATE still matches the row and refreshes its
updated_at column to the (later) current timestamp. -/
theorem C6_already_deleted_not_noop :
    SQLiteMetadataStore.delete_memory [sampleDeletedRow] 0 1 ≠ [sampleDeletedRow] := by
  decide

/-- C6 (amended): softDelete is idempotent in absorption form — a second
call leaves the store exactly as a single call at the second call's time
would; on a nonexistent id it is a strict no-op (and, being total, it
never errors); on an already-deleted id it does not error and changes
nothing except refreshing the matching row's updated_at timestamp. -/
theorem C6_softDelete_idempotent :
    (∀ (rows : List MemRow) (mid t1 t2 : Nat),
        SQLiteMetadataStore.delete_memory
            (SQLiteMetadataStore.delete_memory rows mid t1) mid t2 =
          SQLiteMetadataStore.delete_memory rows mid t2) ∧
    (∀ (rows : List MemRow) (mid now : Nat), (∀ r ∈ rows, r.id ≠ mid) →
        SQLiteMetadataStore.delete_memory rows mid now = rows) ∧
    (∀ (rows : List MemRow) (mid now : Nat),
        (rows.map (fun r => r.id)).Nodup → isDeletedById rows mid = true →
        (SQLiteMetadataStore.delete_memory rows mid now).map rowCore =
          rows.map rowCore) := by
  refine ⟨?_, ?_, ?_⟩
  · intro rows mid t1 t2
    unfold SQLiteMetadataStore.delete_memory
    rw [List.map_map]
    apply map_eq_of_pointwise
    intro r _
    by_cases hr : r.id = mid <;> simp [Function.comp, hr]
  · intro rows mid now h
    unfold SQLiteMetadataStore.delete_memory
    have h2 : rows.map (fun r =>
        if r.id == mid then { r with is_deleted := true, updated_at := now } else r) =
        rows.map id :=
      map_eq_of_pointwise _ _ _ (fun r hr => by simp [h r hr])
    rw [h2, List.map_id]
  · intro rows mid now hnd hdel
    unfold SQLiteMetadataStore.delete_memory
    rw [List.map_map]
    apply map_eq_of_pointwise
    intro r hr
    by_cases hid : r.id = mid
    · have hfind := find?_eq_of_nodup rows r mid hnd hr hid
      have hdel2 : r.is_deleted = true := by
        unfold isDeletedById SQLiteMetadataStore.get_memory_by_id at hdel
        rw [hfind] at hdel
        exact hdel
      simp [Function.comp, rowCore, hid, hdel2]
    · simp [Function.comp, rowCore, hid]

theorem C6_softDelete_idempotent_witness :
    SQLiteMetadataStore.delete_memory
        (SQLiteMetadataStore.delete_memory [sampleActiveRow] 0 1) 0 2 =
      SQLiteMetadataStore.delete_memory [sampleActiveRow] 0 2 ∧
    SQLiteMetadataStore.delete_memory [sampleActiveRow] 5 7 = [sampleActiveRow] ∧
    (SQLiteMetadataStore.delete_memory [sampleDeletedRow] 0 9).map rowCore =
      [sampleDeletedRow].map rowCore :=
  ⟨C6_softDelete_idempotent.1 [sampleActiveRow] 0 1 2,
   C6_softDelete_idempotent.2.1 [sampleActiveRow] 5 7 (by decide),
   C6_softDelete_idempotent.2.2 [sampleDeletedRow] 0 9 (by decide) rfl⟩

/-- C7: against an empty active set, retrieve returns the empty list and
deleteByContent returns false; in both cases no VectorIndex operation
(query or remove) is issued and the system state — metadata rows and
vector entries alike — is returned unchanged. -/
theorem C7_empty_active_set (es : EmbeddingService)
    (dist : List Int → List Int → Int) (s : SysState) (u q fact : String)
    (n now : Nat)
    (hemp : SQLiteMetadataStore.get_active_memories s.meta u = []) :
    (MemoryStorage.retrieve_memories es dist s u q n).result = [] ∧
    (MemoryStorage.retrieve_memories es dist s u q n).state = s ∧
    (∀ e ∈ (MemoryStorage.retrieve_memories es dist s u q n).trace,
        e.isVec = false) ∧
    (MemoryStorage.delete_memory es dist s u fact now).result = false ∧
    (MemoryStorage.delete_memory es dist s u fact now).state = s ∧
    (∀ e ∈ (MemoryStorage.delete_memory es dist s u fact now).trace,
        e.isVec = false) := by
  unfold MemoryStorage.retrieve_memories MemoryStorage.delete_memory
  simp [hemp, StoreEvent.isVec]

theorem C7_empty_active_set_witness :
    (MemoryStorage.retrieve_memories sampleES sampleDist sampleStateEmpty
        "u" "q" 5).result = [] ∧
    (MemoryStorage.retrieve_memories sampleES sampleDist sampleStateEmpty
        "u" "q" 5).state = sampleStateEmpty ∧
    (∀ e ∈ (MemoryStorage.retrieve_memories sampleES sampleDist sampleStateEmpty
        "u" "q" 5).trace, e.isVec = false) ∧
    (MemoryStorage.delete_memory sampleES sampleDist sampleStateEmpty
        "u" "f" 3).result = false ∧
    (MemoryStorage.delete_memory sampleES sampleDist sampleStateEmpty
        "u" "f" 3).state = sampleStateEmpty ∧
    (∀ e ∈ (MemoryStorage.delete_memory sampleES sampleDist sampleStateEmpty
        "u" "f" 3).trace, e.isVec = false) :=
  C7_empty_active_set sampleES sampleDist sampleStateEmpty "u" "q" "f" 5 3 rfl

theorem metaWriteFirst_nil : metaWriteFirst [] := by
  constructor <;> intro i mid h <;> simp at h

theorem metaWriteFirst_single_metaAdd (id0 : Nat) :
    metaWriteFirst [StoreEvent.metaAdd id0] := by
  constructor <;> intro i mid h <;> rcases i with _ | i <;> simp at h

theorem metaWriteFirst_reads_only :
    metaWriteFirst [StoreEvent.metaGetActive, StoreEvent.vecQuery] := by
  constructor <;> intro i mid h <;> rcases i with _ | _ | i <;> simp at h

theorem metaWriteFirst_add_pair (id0 : Nat) (tr : List StoreEvent)
    (h : metaWriteFirst tr) :
    metaWriteFirst (StoreEvent.metaAdd id0 :: StoreEvent.vecAdd id0 :: tr) := by
  constructor
  · intro i mid hg
    rcases i with _ | _ | i
    · simp at hg
    · simp at hg
      exact ⟨0, by omega, by rw [← hg]; rfl⟩
    · rcases h.1 i mid (by simpa using hg) with ⟨j, hj, hgj⟩
      exact ⟨j + 2, by omega, by simpa using hgj⟩
  · intro i mid hg
    rcases i with _ | _ | i
    · simp at hg
    · simp at hg
    · rcases h.2 i mid (by simpa using hg) with ⟨j, hj, hgj⟩
      exact ⟨j + 2, by omega, by simpa using hgj⟩

theorem metaWriteFirst_delete_hit (id0 : Nat) :
    metaWriteFirst [StoreEvent.metaGetActive, StoreEvent.vecQuery,
      StoreEvent.metaSoftDelete id0, StoreEvent.vecRemove id0] := by
  constructor
  · intro i mid hg
    rcases i with _ | _ | _ | _ | i <;> simp at hg
  · intro i mid hg
    rcases i with _ | _ | _ | _ | i
    · simp at hg
    · simp at hg
    · simp at hg
    · simp at hg
      exact ⟨2, by omega, by rw [← hg]; rfl⟩
    · simp at hg

theorem addBatchLoop_metaWriteFirst (u : String) (now : Nat)
    (pairs : List (String × List Int)) :
    ∀ (s : SysState) (md : Option Metadata),
      metaWriteFirst (MemoryStorage.addBatchLoop u now s md pairs).2.1 := by
  induction pairs with
  | nil =>
    intro s md
    exact metaWriteFirst_nil
  | cons pe rest ih =>
    intro s md
    rcases pe with ⟨fact, emb⟩
    unfold MemoryStorage.addBatchLoop
    dsimp only
    split
    · exact metaWriteFirst_single_metaAdd _
    · next meta2 heq =>
      have h3 := ih
        { meta := meta2,
          vec := (ChromaVectorStore.add_memory s.vec s.nextId emb fact md).1,
          nextId := s.nextId + 1 }
        ((ChromaVectorStore.add_memory s.vec s.nextId emb fact md).2)
      split
      · next s3 tr ids hrec =>
        rw [hrec] at h3
        exact metaWriteFirst_add_pair _ _ h3
      · next s3 tr e hrec =>
        rw [hrec] at h3
        exact metaWriteFirst_add_pair _ _ h3

/-- C1: per memory, the metadata write is issued before the vector write —
on every add (single or batch) each vecAdd in the issue trace is preceded
by the metaAdd of the same id, and on every deleteByContent each vecRemove
is preceded by the metaSoftDelete of the same id, so a memory is never
removed from the vector index before its metadata record is marked
deleted. -/
theorem C1_meta_write_before_vec_write (es : EmbeddingService)
    (dist : List Int → List Int → Int) (s : SysState) (u fact : String)
    (facts : List String) (md : Option Metadata) (now : Nat) :
    metaWriteFirst (MemoryStorage.add_memory es s u fact md now).trace ∧
    metaWriteFirst (MemoryStorage.add_memories_batch es s u facts md now).trace ∧
    metaWriteFirst (MemoryStorage.delete_memory es dist s u fact now).trace := by
  refine ⟨?_, ?_, ?_⟩
  · unfold MemoryStorage.add_memory
    dsimp only
    split
    · exact metaWriteFirst_single_metaAdd _
    · exact metaWriteFirst_add_pair _ _ metaWriteFirst_nil
  · unfold MemoryStorage.add_memories_batch
    dsimp only
    split
    · exact metaWriteFirst_nil
    · exact addBatchLoop_metaWriteFirst u now _ s md
  · unfold MemoryStorage.delete_memory
    dsimp only
    split
    · constructor <;> intro i mid h <;> rcases i with _ | i <;> simp at h
    · split
      · exact metaWriteFirst_reads_only
      · exact metaWriteFirst_delete_hit _

theorem C1_meta_write_before_vec_write_witness :
    metaWriteFirst
      (MemoryStorage.add_memory sampleES sampleStateEmpty "u" "f" none 0).trace ∧
    metaWriteFirst
      (MemoryStorage.add_memories_batch sampleES sampleStateEmpty "u" ["f", "g"]
        none 0).trace ∧
    metaWriteFirst
      (MemoryStorage.delete_memory sampleES sampleDist sampleStateAct "u" "f"
        1).trace :=
  ⟨(C1_meta_write_before_vec_write sampleES sampleDist sampleStateEmpty "u" "f" []
      none 0).1,
   (C1_meta_write_before_vec_write sampleES sampleDist sampleStateEmpty "u" "f"
      ["f", "g"] none 0).2.1,
   (C1_meta_write_before_vec_write sampleES sampleDist sampleStateAct "u" "f" []
      none 1).2.2⟩

theorem refetch_some (meta2 : List MemRow) (mid : Nat) (r : MemRow)
    (h : (match SQLiteMetadataStore.get_memory_by_id meta2 mid with
          | some row => if row.is_deleted then none else some row
          | none => none) = some r) :
    r.is_deleted = false ∧ r.id = mid ∧
    SQLiteMetadataStore.get_memory_by_id meta2 mid = some r := by
  cases hfind : SQLiteMetadataStore.get_memory_by_id meta2 mid with
  | none => rw [hfind] at h; cases h
  | some row =>
    rw [hfind] at h
    dsimp only at h
    cases hd : row.is_deleted with
    | true => rw [hd] at h; simp at h
    | false =>
      rw [hd] at h
      simp only [Bool.false_eq_true, if_false, Option.some.injEq] at h
      subst h
      refine ⟨hd, ?_, rfl⟩
      have := List.find?_some hfind
      simpa using this

theorem filterMap_refetch_sublist (meta2 : List MemRow) (l : List Nat) :
    ((l.filterMap (fun mid =>
        match SQLiteMetadataStore.get_memory_by_id meta2 mid with
        | some row => if row.is_deleted then none else some row
        | none => none)).map (fun r => r.id)).Sublist l := by
  induction l with
  | nil => simp
  | cons x xs ih =>
    rw [List.filterMap_cons]
    cases hx : (match SQLiteMetadataStore.get_memory_by_id meta2 x with
        | some row => if row.is_deleted then none else some row
        | none => none) with
    | none => exact ih.cons x
    | some b =>
      rw [List.map_cons, (refetch_some meta2 x b hx).2.1]
      exact ih.cons₂ x

/-- C2: a retrieve whose candidate fetch and per-hit re-fetch may observe
different metadata states (a concurrent delete landing in between) never
returns a row that is soft-deleted or absent from the metadata log at
re-fetch time, and the surviving rows keep the similarity order of the
vector query; the production retrieve_memories is exactly the
interleaving-free instance of this operation. -/
theorem C2_retrieve_never_returns_deleted
    (dist : List Int → List Int → Int) (qe : List Int)
    (meta1 meta2 : List MemRow) (vec : ChromaCollection) (u : String) (n : Nat) :
    (∀ r ∈ retrieve_memories_interleaved dist qe meta1 meta2 vec u n,
        r.is_deleted = false ∧
        SQLiteMetadataStore.get_memory_by_id meta2 r.id = some r) ∧
    (((retrieve_memories_interleaved dist qe meta1 meta2 vec u n).map
        (fun r => r.id)).Sublist
      (ChromaVectorStore.query vec dist qe
        (some (SQLiteMetadataStore.get_active_memories meta1 u)) n)) ∧
    (∀ (es : EmbeddingService) (s : SysState) (q : String),
        (MemoryStorage.retrieve_memories es dist s u q n).result =
          retrieve_memories_interleaved dist (es.generate_embedding q)
            s.meta s.meta s.vec u n) := by
  refine ⟨?_, ?_, ?_⟩
  · intro r hr
    unfold retrieve_memories_interleaved at hr
    dsimp only at hr
    split at hr
    · cases hr
    · rcases List.mem_filterMap.mp hr with ⟨mid, _, hmid⟩
      rcases refetch_some meta2 mid r hmid with ⟨hdel, hid, hfind⟩
      exact ⟨hdel, by rw [hid]; exact hfind⟩
  · unfold retrieve_memories_interleaved
    dsimp only
    split
    · next hc =>
      simp
    · exact filterMap_refetch_sublist meta2 _
  · intro es s q
    unfold MemoryStorage.retrieve_memories retrieve_memories_interleaved
    by_cases hc : (SQLiteMetadataStore.get_active_memories s.meta u).isEmpty <;>
      simp [hc]

theorem C2_retrieve_never_returns_deleted_witness :
    (∀ r ∈ retrieve_memories_interleaved sampleDist [2] [sampleActiveRow]
        [sampleActiveRow] sampleStateAct.vec "u" 1,
        r.is_deleted = false ∧
        SQLiteMetadataStore.get_memory_by_id [sampleActiveRow] r.id = some r) ∧
    (((retrieve_memories_interleaved sampleDist [2] [sampleActiveRow]
        [sampleActiveRow] sampleStateAct.vec "u" 1).map (fun r => r.id)).Sublist
      (ChromaVectorStore.query sampleStateAct.vec sampleDist [2]
        (some (SQLiteMetadataStore.get_active_memories [sampleActiveRow] "u")) 1)) ∧
    (∀ (es : EmbeddingService) (s : SysState) (q : String),
        (MemoryStorage.retrieve_memories es sampleDist s "u" q 1).result =
          retrieve_memories_interleaved sampleDist (es.generate_embedding q)
            s.meta s.meta s.vec "u" 1) :=
  C2_retrieve_never_returns_deleted sampleDist [2] [sampleActiveRow]
    [sampleActiveRow] sampleStateAct.vec "u" 1

theorem mem_vquery (c : ChromaCollection) (dist : List Int → List Int → Int)
    (emb : List Int) (ids : List Nat) (n : Nat) (mid : Nat)
    (h : mid ∈ ChromaVectorStore.query c dist emb (some ids) n) :
    mid ∈ ids ∧ ∃ e, (mid, e) ∈ c.entries :=
  mem_queryNearest c dist emb ids n mid h

theorem id_unique_of_nodup (rows : List MemRow)
    (hnd : (rows.map (fun r => r.id)).Nodup) (r1 r2 : MemRow)
    (h1 : r1 ∈ rows) (h2 : r2 ∈ rows) (heq : r1.id = r2.id) : r1 = r2 := by
  have hf1 := find?_eq_of_nodup rows r1 r1.id hnd h1 rfl
  have hf2 := find?_eq_of_nodup rows r2 r1.id hnd h2 heq.symm
  rw [hf1] at hf2
  exact Option.some.inj hf2

/-- C4: operations are scoped to the requested user — retrieve only
returns rows owned by that user, and deleteByContent leaves every other
user's metadata row untouched and every vector entry outside the
requested user's active set in place.  The Nodup hypothesis is the
PRIMARY KEY constraint on the id column. -/
theorem C4_user_isolation (es : EmbeddingService)
    (dist : List Int → List Int → Int) (s : SysState) (u q fact : String)
    (n now : Nat) (hnd : (s.meta.map (fun r => r.id)).Nodup) :
    (∀ r ∈ (MemoryStorage.retrieve_memories es dist s u q n).result,
        r.user_id = u) ∧
    (∀ r ∈ s.meta, r.user_id ≠ u →
        r ∈ (MemoryStorage.delete_memory es dist s u fact now).state.meta) ∧
    (∀ p ∈ s.vec.entries,
        p.1 ∉ SQLiteMetadataStore.get_active_memories s.meta u →
        p ∈ (MemoryStorage.delete_memory es dist s u fact now).state.vec.entries) := by
  refine ⟨?_, ?_, ?_⟩
  · intro r hr
    unfold MemoryStorage.retrieve_memories at hr
    dsimp only at hr
    split at hr
    · cases hr
    · rcases List.mem_filterMap.mp hr with ⟨mid, hmem, hmid⟩
      rcases refetch_some s.meta mid r hmid with ⟨_, hid, hfind⟩
      rcases (mem_vquery _ _ _ _ _ _ hmem).1 with hact
      rcases (mem_get_active_memories s.meta u mid).mp hact with ⟨row, hrow, hrid, hru, _⟩
      have hrmem : r ∈ s.meta := List.mem_of_find?_eq_some hfind
      have : r = row := id_unique_of_nodup s.meta hnd r row hrmem hrow (by rw [hid, hrid])
      rw [this]
      exact hru
  · intro r hr hne
    unfold MemoryStorage.delete_memory
    dsimp only
    split
    · exact hr
    · split
      · exact hr
      · next mid rest heq =>
        have hact : mid ∈ SQLiteMetadataStore.get_active_memories s.meta u := by
          have : mid ∈ ChromaVectorStore.query s.vec dist (es.generate_embedding fact)
              (some (SQLiteMetadataStore.get_active_memories s.meta u)) 1 := by
            rw [heq]; exact List.mem_cons_self mid rest
          exact (mem_vquery _ _ _ _ _ _ this).1
        rcases (mem_get_active_memories s.meta u mid).mp hact with
          ⟨row, hrow, hrid, hru, _⟩
        have hrne : ¬ r.id = mid := by
          intro hr2
          have : r = row := id_unique_of_nodup s.meta hnd r row hr hrow
            (by rw [hr2, hrid])
          rw [this] at hne
          exact hne hru
        apply List.mem_map.mpr
        refine ⟨r, hr, ?_⟩
        simp [SQLiteMetadataStore.delete_memory, hrne]
  · intro p hp hnact
    unfold MemoryStorage.delete_memory
    dsimp only
    split
    · exact hp
    · split
      · exact hp
      · next mid rest heq =>
        have hact : mid ∈ SQLiteMetadataStore.get_active_memories s.meta u := by
          have : mid ∈ ChromaVectorStore.query s.vec dist (es.generate_embedding fact)
              (some (SQLiteMetadataStore.get_active_memories s.meta u)) 1 := by
            rw [heq]; exact List.mem_cons_self mid rest
          exact (mem_vquery _ _ _ _ _ _ this).1
        have hpne : ¬ p.1 = mid := by
          intro hp2
          rw [hp2] at hnact
          exact hnact hact
        apply List.mem_filter.mpr
        exact ⟨hp, by simp [hpne]⟩

theorem C4_user_isolation_witness :
    (∀ r ∈ (MemoryStorage.retrieve_memories sampleES sampleDist sampleStateAct
        "u" "q" 5).result, r.user_id = "u") ∧
    (∀ r ∈ sampleStateAct.meta, r.user_id ≠ "u" →
        r ∈ (MemoryStorage.delete_memory sampleES sampleDist sampleStateAct
          "u" "f" 7).state.meta) ∧
    (∀ p ∈ sampleStateAct.vec.entries,
        p.1 ∉ SQLiteMetadataStore.get_active_memories sampleStateAct.meta "u" →
        p ∈ (MemoryStorage.delete_memory sampleES sampleDist sampleStateAct
          "u" "f" 7).state.vec.entries) :=
  C4_user_isolation sampleES sampleDist sampleStateAct "u" "q" "f" 5 7 (by decide)

theorem query_ne_nil (c : ChromaCollection) (dist : List Int → List Int → Int)
    (emb : List Int) (ids : List Nat) (n : Nat) (hn : 0 < n) (a : Nat)
    (ha : a ∈ ids) (e : VecEntry) (he : (a, e) ∈ c.entries) :
    ChromaVectorStore.query c dist emb (some ids) n ≠ [] := by
  unfold ChromaVectorStore.query ChromaVectorStore.convert_filter_to_chroma_format
    ChromaCollection.queryNearest
  dsimp only
  have helig : (a, e) ∈ c.entries.filter (fun p => ids.contains p.1) :=
    List.mem_filter.mpr ⟨he, by simpa using List.elem_iff.mpr ha⟩
  have hsort : (a, e) ∈ SQLiteMetadataStore.sortByKey
      (fun p => dist emb p.2.embedding) (c.entries.filter (fun p => ids.contains p.1)) :=
    (mem_sortByKey _ _ _).mpr helig
  cases hs : SQLiteMetadataStore.sortByKey (fun p => dist emb p.2.embedding)
      (c.entries.filter (fun p => ids.contains p.1)) with
  | nil => rw [hs] at hsort; cases hsort
  | cons p t =>
    cases n with
    | zero => omega
    | succ m => simp [hs]

theorem query_cons_min (c : ChromaCollection) (dist : List Int → List Int → Int)
    (emb : List Int) (ids : List Nat) (n : Nat) (mid : Nat) (rest : List Nat)
    (hq : ChromaVectorStore.query c dist emb (some ids) n = mid :: rest) :
    mid ∈ ids ∧ ∃ ei, (mid, ei) ∈ c.entries ∧
      ∀ j ∈ ids, ∀ ej, (j, ej) ∈ c.entries →
        dist emb ei.embedding ≤ dist emb ej.embedding := by
  unfold ChromaVectorStore.query ChromaVectorStore.convert_filter_to_chroma_format
    ChromaCollection.queryNearest at hq
  dsimp only at hq
  cases hs : SQLiteMetadataStore.sortByKey (fun p => dist emb p.2.embedding)
      (c.entries.filter (fun p => ids.contains p.1)) with
  | nil => rw [hs] at hq; simp at hq
  | cons p t =>
    rw [hs] at hq
    cases n with
    | zero => simp at hq
    | succ m =>
      rw [List.take_succ_cons, List.map_cons] at hq
      have hpmid : p.1 = mid := (List.cons.inj hq).1
      have hpelig : p ∈ c.entries.filter (fun p => ids.contains p.1) := by
        rw [← mem_sortByKey (fun p => dist emb p.2.embedding), hs]
        exact List.mem_cons_self p t
      rcases List.mem_filter.mp hpelig with ⟨hpent, hpin⟩
      have hmin := sortByKey_head_min (fun p => dist emb p.2.embedding)
        (c.entries.filter (fun p => ids.contains p.1)) p t hs
      refine ⟨by rw [← hpmid]; exact List.elem_iff.mp (by simpa using hpin), p.2, ?_, ?_⟩
      · rw [← hpmid]
        simpa using hpent
      · intro j hj ej hej
        have helig : (j, ej) ∈ c.entries.filter (fun p => ids.contains p.1) :=
          List.mem_filter.mpr ⟨hej, by simpa using List.elem_iff.mpr hj⟩
        exact hmin (j, ej) helig

/-- C3: when the user's active set is non-empty and every active id has a
vector in the index (liveness agreement I2), deleteByContent returns true
and soft-deletes exactly the id the top-1 restricted vector query ranks
nearest — a minimiser of the distance over all active entries — and
removes its vector; no distance threshold is involved, the statement
holding for every distance function however weak the best match is. -/
theorem C3_delete_nearest (es : EmbeddingService)
    (dist : List Int → List Int → Int) (s : SysState) (u fact : String) (now : Nat)
    (hne : SQLiteMetadataStore.get_active_memories s.meta u ≠ [])
    (hcov : ∀ i ∈ SQLiteMetadataStore.get_active_memories s.meta u,
        ∃ e, (i, e) ∈ s.vec.entries) :
    ∃ tid,
      (MemoryStorage.delete_memory es dist s u fact now).result = true ∧
      tid ∈ SQLiteMetadataStore.get_active_memories s.meta u ∧
      (∃ ei, (tid, ei) ∈ s.vec.entries ∧
        ∀ j ∈ SQLiteMetadataStore.get_active_memories s.meta u, ∀ ej,
          (j, ej) ∈ s.vec.entries →
          dist (es.generate_embedding fact) ei.embedding ≤
            dist (es.generate_embedding fact) ej.embedding) ∧
      (MemoryStorage.delete_memory es dist s u fact now).state.meta =
        SQLiteMetadataStore.delete_memory s.meta tid now ∧
      (MemoryStorage.delete_memory es dist s u fact now).state.vec =
        ChromaVectorStore.delete_memory s.vec tid := by
  unfold MemoryStorage.delete_memory
  dsimp only
  split
  · next hc =>
    exact absurd (List.isEmpty_iff.mp hc) hne
  · split
    · next hq =>
      rcases List.exists_mem_of_ne_nil _ hne with ⟨a, ha⟩
      rcases hcov a ha with ⟨e, he⟩
      exact absurd hq (query_ne_nil s.vec dist (es.generate_embedding fact) _ 1
        (by omega) a ha e he)
    · next mid rest hq =>
      rcases query_cons_min s.vec dist (es.generate_embedding fact) _ 1 mid rest hq
        with ⟨hmidact, ei, hei, hmin⟩
      exact ⟨mid, rfl, hmidact, ⟨ei, hei, hmin⟩, rfl, rfl⟩

theorem C3_delete_nearest_witness :
    ∃ tid,
      (MemoryStorage.delete_memory sampleES sampleDist sampleStateAct
        "u" "f" 7).result = true ∧
      tid ∈ SQLiteMetadataStore.get_active_memories sampleStateAct.meta "u" ∧
      (∃ ei, (tid, ei) ∈ sampleStateAct.vec.entries ∧
        ∀ j ∈ SQLiteMetadataStore.get_active_memories sampleStateAct.meta "u", ∀ ej,
          (j, ej) ∈ sampleStateAct.vec.entries →
          sampleDist (sampleES.generate_embedding "f") ei.embedding ≤
            sampleDist (sampleES.generate_embedding "f") ej.embedding) ∧
      (MemoryStorage.delete_memory sampleES sampleDist sampleStateAct
          "u" "f" 7).state.meta =
        SQLiteMetadataStore.delete_memory sampleStateAct.meta tid 7 ∧
      (MemoryStorage.delete_memory sampleES sampleDist sampleStateAct
          "u" "f" 7).state.vec =
        ChromaVectorStore.delete_memory sampleStateAct.vec tid :=
  C3_delete_nearest sampleES sampleDist sampleStateAct "u" "f" 7 (by decide)
    (fun i hi => by
      have : i = 0 := by
        rw [show SQLiteMetadataStore.get_active_memories sampleStateAct.meta "u"
            = [0] from rfl] at hi
        simpa using hi
      exact ⟨{ embedding := [2], content := "aa", metadata := [] }, by
        rw [this]; exact List.mem_singleton.mpr rfl⟩)

/-- C9 evaluated at the failing input: a batch add of two facts with the
shared non-empty metadata mapping (k: v).  The add succeeds and the first
row round-trips the mapping, but the second row's MetadataLog metadata is
the mapping augmented with the first fact's memory_id — the wrapper
ChromaVectorStore.add_memory mutated the caller's dict in place between
the two metadata INSERTs, so metadata is not round-tripped verbatim. -/
theorem C9_metadata_batch_contamination :
    (MemoryStorage.add_memories_batch sampleES sampleStateEmpty "u" ["f1", "f2"]
        (some [("k", MVal.str "v")]) 0).result = Except.ok [0, 1] ∧
    (SQLiteMetadataStore.get_memory_by_id
        (MemoryStorage.add_memories_batch sampleES sampleStateEmpty "u" ["f1", "f2"]
          (some [("k", MVal.str "v")]) 0).state.meta 0).map (fun r => r.metadata)
      = some (MVal.obj [("k", MVal.str "v")]) ∧
    (SQLiteMetadataStore.get_memory_by_id
        (MemoryStorage.add_memories_batch sampleES sampleStateEmpty "u" ["f1", "f2"]
          (some [("k", MVal.str "v")]) 0).state.meta 1).map (fun r => r.metadata)
      = some (MVal.obj [("k", MVal.str "v"), ("memory_id", MVal.str "0")]) ∧
    MVal.obj [("k", MVal.str "v"), ("memory_id", MVal.str "0")] ≠
      MVal.obj [("k", MVal.str "v")] :=
  ⟨rfl, rfl, rfl, by decide⟩

theorem range_map_shift (c n : Nat) :
    (List.range (n + 1)).map (fun k => c + k) =
      c :: (List.range n).map (fun k => (c + 1) + k) := by
  rw [List.range_succ_eq_map]
  rw [List.map_cons, List.map_map]
  refine congrArg₂ List.cons (by omega) ?_
  apply map_eq_of_pointwise
  intro a _
  simp [Function.comp]
  omega

theorem addBatchLoop_ok_ids (u : String) (now : Nat)
    (pairs : List (String × List Int)) :
    ∀ (s : SysState) (md : Option Metadata),
      (∀ r ∈ s.meta, r.id < s.nextId) →
      (MemoryStorage.addBatchLoop u now s md pairs).2.2 =
        Except.ok ((List.range pairs.length).map (fun k => s.nextId + k)) := by
  induction pairs with
  | nil => intro s md _; rfl
  | cons pe rest ih =>
    intro s md hfresh
    rcases pe with ⟨fact, emb⟩
    have hnm : (s.meta.any (fun r => r.id == s.nextId)) = false := by
      cases hany : s.meta.any (fun r => r.id == s.nextId) with
      | false => rfl
      | true =>
        rcases List.any_eq_true.mp hany with ⟨r, hr, hp⟩
        have := hfresh r hr
        simp only [beq_iff_eq] at hp
        omega
    have hadd : SQLiteMetadataStore.add_memory s.meta s.nextId u fact md now =
        Except.ok (s.meta ++
          [{ id := s.nextId, user_id := u, content := fact, is_deleted := false,
             created_at := now, updated_at := now,
             metadata := MVal.obj (md.getD []) }]) := by
      unfold SQLiteMetadataStore.add_memory
      rw [hnm]
      rfl
    unfold MemoryStorage.addBatchLoop
    dsimp only
    split
    · next e heq => rw [hadd] at heq; cases heq
    · next meta2 heq =>
      rw [hadd] at heq
      have hm2 := Except.ok.inj heq
      have hfresh2 : ∀ r ∈ meta2, r.id < s.nextId + 1 := by
        intro r hr
        rw [← hm2] at hr
        rcases List.mem_append.mp hr with h | h
        · exact Nat.lt_succ_of_lt (hfresh r h)
        · have : r.id = s.nextId := by
            rcases List.mem_singleton.mp h with rfl
            rfl
          omega
      have hrec := ih
        { meta := meta2,
          vec := (ChromaVectorStore.add_memory s.vec s.nextId emb fact md).1,
          nextId := s.nextId + 1 }
        ((ChromaVectorStore.add_memory s.vec s.nextId emb fact md).2) hfresh2
      split
      · next s3 tr ids hrecEq =>
        rw [hrecEq] at hrec
        have hids := Except.ok.inj hrec
        show Except.ok (s.nextId :: ids) = _
        rw [hids, List.length_cons, range_map_shift]
      · next s3 tr e hrecEq =>
        rw [hrecEq] at hrec
        cases hrec

/-- C10: a batch add over n facts returns exactly one freshly minted id
per fact in input order (the n successive values of the mint counter),
the returned ids are pairwise distinct and distinct from every id already
in the metadata log, and the empty facts list returns the empty id list
with no store call and the state unchanged.  The length hypothesis is the
embedding provider's contract (embedMany preserves order and length),
which the zip inside the loop consumes; the freshness hypothesis is the
uuid-mint invariant. -/
theorem C10_batch_returns_fresh_ids (es : EmbeddingService) (s : SysState)
    (u : String) (facts : List String) (md : Option Metadata) (now : Nat)
    (hlen : (es.generate_embeddings_batch facts).length = facts.length)
    (hfresh : ∀ r ∈ s.meta, r.id < s.nextId) :
    (MemoryStorage.add_memories_batch es s u facts md now).result =
      Except.ok ((List.range facts.length).map (fun k => s.nextId + k)) ∧
    ((List.range facts.length).map (fun k => s.nextId + k)).Nodup ∧
    (∀ i ∈ (List.range facts.length).map (fun k => s.nextId + k),
        ∀ r ∈ s.meta, r.id ≠ i) ∧
    (facts = [] →
      (MemoryStorage.add_memories_batch es s u facts md now).state = s ∧
      (MemoryStorage.add_memories_batch es s u facts md now).trace = []) := by
  refine ⟨?_, ?_, ?_, ?_⟩
  · unfold MemoryStorage.add_memories_batch
    dsimp only
    split
    · next hc =>
      rw [List.isEmpty_iff.mp hc]
      rfl
    · have hzl : (facts.zip (es.generate_embeddings_batch facts)).length =
          facts.length := by
        rw [List.length_zip, hlen, Nat.min_self]
      have := addBatchLoop_ok_ids u now
        (facts.zip (es.generate_embeddings_batch facts)) s md hfresh
      rw [hzl] at this
      exact this
  · exact List.Nodup.map (fun a b h => by omega) (List.nodup_range _)
  · intro i hi r hr
    rcases List.mem_map.mp hi with ⟨k, _, rfl⟩
    have := hfresh r hr
    omega
  · intro hf
    subst hf
    exact ⟨rfl, rfl⟩

theorem C10_batch_returns_fresh_ids_witness :
    (MemoryStorage.add_memories_batch sampleES sampleStateEmpty "u" ["f1", "f2"]
        none 0).result =
      Except.ok ((List.range (["f1", "f2"] : List String).length).map
        (fun k => sampleStateEmpty.nextId + k)) ∧
    ((List.range (["f1", "f2"] : List String).length).map
        (fun k => sampleStateEmpty.nextId + k)).Nodup ∧
    (∀ i ∈ (List.range (["f1", "f2"] : List String).length).map
        (fun k => sampleStateEmpty.nextId + k),
        ∀ r ∈ sampleStateEmpty.meta, r.id ≠ i) ∧
    ((["f1", "f2"] : List String) = [] →
      (MemoryStorage.add_memories_batch sampleES sampleStateEmpty "u" ["f1", "f2"]
          none 0).state = sampleStateEmpty ∧
      (MemoryStorage.add_memories_batch sampleES sampleStateEmpty "u" ["f1", "f2"]
          none 0).trace = []) :=
  C10_batch_returns_fresh_ids sampleES sampleStateEmpty "u" ["f1", "f2"] none 0
    rfl (by decide)
